import Mathlib

/-!
Multi-threaded HTTP multipart downloader: `queue.c` and `http.c`.

A shallow embedding of the bounded queue (`queue.c`) and of the pure parts of
the HTTP client (`http.c`), followed by the properties established for them.

Conventions used by the embedding

* Bytes (`char`) are natural numbers; a `void *` item is the natural number of
  its address, `NULL` being `0`.
* A block of memory is the `List Nat` of all the bytes it holds.  A read or a
  write outside the block is undefined, and the function that makes it returns
  `none`.  String literals are given by their characters, the terminator the
  compiler appends being left implicit.
* `int` is the 32-bit two's-complement type.  Where the C standard leaves an
  `int` computation undefined (overflow, a store past an array) the embedding
  returns `none`.
* `queue.c`: one `queue_put` / `queue_get` call is one atomic step.  A call
  whose `sem_wait` would block is not enabled and yields `none`.
-/

namespace Downloader

/-! ## queue.c -/

/-- The struct `QueueStruct`.  The mutex carries no data and is not represented;
`queue_add` and `queue_delete` hold the values of the two semaphores. -/
structure Queue where
  start : Nat
  end_ : Nat
  size : Nat
  queue_add : Nat
  queue_delete : Nat
  data : List Nat
deriving DecidableEq

/-- `queue_alloc`: indices zero, `calloc`-ed (all `NULL`) slot array,
`sem_init(queue_add, size)`, `sem_init(queue_delete, 0)`. -/
def queue_alloc (size : Nat) : Queue :=
  { start := 0
    end_ := 0
    size := size
    queue_add := size
    queue_delete := 0
    data := List.replicate size 0 }

/-- `queue_put`.  `sem_wait(queue_add)` needs a positive semaphore; the body
stores the item at `data[end]` and advances `end` with the test
`end + 1 <= size - 1`; `sem_post(queue_delete)` follows.  A store outside the
slot array is undefined and gives `none` as well.  The test is made in `size_t`;
`size - 1` does not wrap for `size ≥ 1`, and with `size = 0` the semaphore is
never positive, so the body is not reached. -/
def queue_put (queue : Queue) (item : Nat) : Option Queue :=
  if queue.queue_add = 0 then none
  else if queue.data.length ≤ queue.end_ then none
  else
    some { queue with
      queue_add := queue.queue_add - 1
      data := queue.data.set queue.end_ item
      end_ := if queue.end_ + 1 ≤ queue.size - 1 then queue.end_ + 1 else 0
      queue_delete := queue.queue_delete + 1 }

/-- `queue_get`.  `sem_wait(queue_delete)` needs a positive semaphore; the body
loads `data[start]` and advances `start` with the test `start + 1 <= size - 1`;
`sem_post(queue_add)` follows. -/
def queue_get (queue : Queue) : Option (Nat × Queue) :=
  if queue.queue_delete = 0 then none
  else
    match queue.data[queue.start]? with
    | none => none
    | some item =>
      some (item, { queue with
        queue_delete := queue.queue_delete - 1
        start := if queue.start + 1 ≤ queue.size - 1 then queue.start + 1 else 0
        queue_add := queue.queue_add + 1 })

/-- One call made by a client of the queue. -/
inductive Op where
  | put (item : Nat)
  | get
deriving DecidableEq

/-- Runs a sequence of calls; the result is the final queue and the items the
`queue_get` calls returned, in call order.  `none` when some call is not
enabled. -/
def run : Queue → List Op → Option (Queue × List Nat)
  | q, [] => some (q, [])
  | q, Op.put x :: ops =>
    match queue_put q x with
    | none => none
    | some q' => run q' ops
  | q, Op.get :: ops =>
    match queue_get q with
    | none => none
    | some (x, q') =>
      match run q' ops with
      | none => none
      | some (qf, outs) => some (qf, x :: outs)

/-- The items passed to `queue_put`, in call order. -/
def puts : List Op → List Nat
  | [] => []
  | Op.put x :: ops => x :: puts ops
  | Op.get :: ops => puts ops

/-- The number of `queue_get` calls. -/
def numGets : List Op → Nat
  | [] => 0
  | Op.put _ :: ops => numGets ops
  | Op.get :: ops => numGets ops + 1

/-- The discipline the semaphores impose, stated on the number of items held:
a put is made only with fewer than `C` items held, a get only with at least
one. -/
def guarded (C : Nat) : Nat → List Op → Bool
  | _, [] => true
  | held, Op.put _ :: ops => decide (held < C) && guarded C (held + 1) ops
  | held, Op.get :: ops => decide (0 < held) && guarded C (held - 1) ops

/-- A call sequence on a queue of capacity 2 that fills it, drains part of it
and wraps both indices. -/
def sampleOps : List Op := [Op.put 7, Op.put 8, Op.get, Op.put 9, Op.get]

/-- The queue reached from `queue_alloc 2` by `sampleOps`. -/
def sampleQueue : Queue :=
  { start := 0, end_ := 1, size := 2, queue_add := 1, queue_delete := 1, data := [9, 8] }

/-! ## http.c -/

/-- The macro `BUF_SIZE`. -/
def BUF_SIZE : Nat := 1024

/-- Largest value of the 32-bit `int`. -/
def INT_MAX : Int := 2147483647

/-- Smallest value of the 32-bit `int`. -/
def INT_MIN : Int := -2147483648

/-- The bytes of a string literal (without a terminator). -/
def bytes (s : String) : List Nat := s.toList.map Char.toNat

/-- The bytes of a block that precede its first NUL byte (all of them when the
block holds no NUL). -/
def cstr (mem : List Nat) : List Nat := mem.takeWhile (fun c => c != 0)

/-- `strlen` of a string literal. -/
def strlen (s : List Nat) : Nat := (cstr s).length

/-- Comparison made by `strstr` at one position of the haystack: `some true`
when the characters of `needle` are all found, `some false` at the first byte
that differs (the haystack's NUL included), `none` when the comparison reaches
the end of the block first and so reads past it. -/
def strstr_match : List Nat → List Nat → Option Bool
  | [], _ => some true
  | _ :: _, [] => none
  | n :: needle, c :: mem => if c = n then strstr_match needle mem else some false

/-- Left-to-right scan of `strstr` over the block `mem`, at offset `i` of the
haystack.  The scan ends with a match (`some (some i)`), at the NUL byte of the
haystack (`some none`, the `NULL` result), or past the end of the block
(`none`). -/
def strstr_from (needle : List Nat) : List Nat → Nat → Option (Option Nat)
  | [], i =>
    match strstr_match needle [] with
    | some true => some (some i)
    | _ => none
  | c :: mem, i =>
    match strstr_match needle (c :: mem) with
    | none => none
    | some true => some (some i)
    | some false => if c = 0 then some none else strstr_from needle mem (i + 1)

/-- `strstr(haystack, needle)` for a haystack stored in the block `haystack`
and a string literal `needle`: the offset of the first occurrence,
`some none` for `NULL`, and `none` when the haystack is not terminated inside
the block and the search runs past its end. -/
def strstr (haystack needle : List Nat) : Option (Option Nat) :=
  strstr_from (cstr needle) haystack 0

/-- `isdigit` in the C locale. -/
def isdigit (c : Nat) : Bool := decide (48 ≤ c) && decide (c ≤ 57)

/-- `isspace` in the C locale. -/
def isspace (c : Nat) : Bool := c == 32 || (decide (9 ≤ c) && decide (c ≤ 13))

/-- Value of a run of decimal digit characters. -/
def decimal (ds : List Nat) : Nat := ds.foldl (fun n c => 10 * n + (c - 48)) 0

/-- The optional sign read by `atoi`: whether it is `-` (45), and the text after
a `-` or `+` (43). -/
def atoi_sign : List Nat → Bool × List Nat
  | [] => (false, [])
  | c :: r => if c = 45 then (true, r) else if c = 43 then (false, r) else (false, c :: r)

/-- `atoi` on the string stored in the block `nptr`: optional white space,
optional sign, decimal digits.  The result is undefined (`none`) when the block
holds no terminator or when the value is not representable in `int`. -/
def atoi (nptr : List Nat) : Option Int :=
  if 0 ∈ nptr then
    let signed := atoi_sign ((cstr nptr).dropWhile isspace)
    let v : Int := (decimal (signed.2.takeWhile isdigit) : Nat)
    let v := if signed.1 then -v else v
    if INT_MIN ≤ v ∧ v ≤ INT_MAX then some v else none
  else none

/-- `http_get_content` on the block `response->data` points at: the offset,
relative to `response->data`, of the returned pointer.  `header_end + 4` when
`strstr` finds the separator, the start of the data when it returns `NULL`.  The
`length` field is not consulted; when the block holds neither the separator nor
a NUL byte the search runs past its end and there is no defined result. -/
def http_get_content (response_data : List Nat) : Option Nat :=
  match strstr response_data (bytes "\r\n\r\n") with
  | none => none
  | some (some header_end) => some (header_end + 4)
  | some none => some 0

/-- The digit loop of `get_num_tasks` (lines 184-188) reading the block from
`buffer[index]` on: the characters it stores, or `none` when it reaches the end
of the block without meeting a byte that is not a digit. -/
def digit_loop : List Nat → Option (List Nat)
  | [] => none
  | c :: mem =>
    if isdigit c then
      match digit_loop mem with
      | none => none
      | some stored => some (c :: stored)
    else some []

/-- Lines 179-189 of `get_num_tasks`: the characters stored into
`content_length`.  `buffer` is the whole `malloc(BUF_SIZE)` block after the
`read`: the bytes received followed by the bytes the block held before.  The
digit loop starts `strlen("Content-Length: ")` bytes after the match of
`strstr`; no character is stored when `strstr` returns `NULL`. -/
def content_length_chars (buffer : List Nat) : Option (List Nat) :=
  match strstr buffer (bytes "Content-Length:") with
  | none => none
  | some none => some []
  | some (some result) =>
    digit_loop (buffer.drop (result + strlen (bytes "Content-Length: ")))

/-- Lines 179-190 of `get_num_tasks`: the value `content_length_int`.  The array
`content_length[20]` starts zeroed; twenty or more stored characters leave it
without terminator or run past its end, which is undefined. -/
def content_length_int (buffer : List Nat) : Option Int :=
  match content_length_chars buffer with
  | none => none
  | some stored =>
    if 20 ≤ stored.length then none
    else atoi (stored ++ List.replicate (20 - stored.length) 0)

/-- Outcome of a call of `get_num_tasks`: the value returned and the value left
in the global `max_chunk_size`.  The global is declared in `http.h`, which is not
among the sources; it has the type `int` that `get_max_chunk_size` returns. -/
structure Probe where
  ret : Int
  max_chunk_size : Int
deriving DecidableEq

/-- Lines 191-198 of `get_num_tasks`: `max_chunk_size = content_length_int /
threads + 1; return threads;`.  Division by zero and `int` overflow are
undefined. -/
def get_num_tasks_sized (content_length_int threads : Int) : Option Probe :=
  if threads = 0 then none
  else
    let quotient := Int.tdiv content_length_int threads
    if INT_MIN ≤ quotient ∧ quotient + 1 ≤ INT_MAX then
      some { ret := threads, max_chunk_size := quotient + 1 }
    else none

/-- `get_num_tasks`, from the `malloc(BUF_SIZE)` block `buffer` as the single
`read` of the HEAD response left it: the bytes received, followed by the bytes
the block held before. -/
def get_num_tasks (buffer : List Nat) (threads : Int) : Option Probe :=
  match content_length_int buffer with
  | none => none
  | some size => get_num_tasks_sized size threads

/-- `get_max_chunk_size`: the value of the global. -/
def get_max_chunk_size (p : Probe) : Int := p.max_chunk_size

/-- `ceil(a / b)` for positive `b`: the number of chunks of `b` bytes needed for
`a` bytes. -/
def ceil_div (a b : Int) : Int := (a + b - 1) / b

/-- Modelled from the spec: the struct `Buffer`, declared in `http.h`, which is
not among the sources.  It is the byte block `data` points at together with the
`length` field, as `http_query` uses them; `length` is kept as an integer. -/
structure Buffer where
  data : List Nat
  length : Int
deriving DecidableEq

/-- What one `read(socket_id, buffer, BUF_SIZE)` delivers: some bytes (none at
end of stream), or the error return `-1`. -/
inductive ReadResult where
  | received (bs : List Nat)
  | failed
deriving DecidableEq

/-- The value `read` returns. -/
def ReadResult.num_bytes : ReadResult → Int
  | ReadResult.received bs => (bs.length : Nat)
  | ReadResult.failed => -1

/-- The bytes `read` left in the local array `buffer`. -/
def ReadResult.buffer : ReadResult → List Nat
  | ReadResult.received bs => bs
  | ReadResult.failed => []

/-- `realloc(block, n)`: the first `min(old, n)` bytes are kept; new bytes are
shown as `0`. -/
def realloc (block : List Nat) (n : Int) : List Nat :=
  (block ++ List.replicate (n.toNat - block.length) 0).take n.toNat

/-- `memcpy(dst + off, src, n)`.  The copy is defined when `n` bytes can be read
from `src` and written at offset `off` of `dst`.  A negative `n` converts to a
`size_t` beyond every block, so that copy is undefined. -/
def memcpy (dst : List Nat) (off : Int) (src : List Nat) (n : Int) : Option (List Nat) :=
  if 0 ≤ n ∧ 0 ≤ off ∧ off.toNat + n.toNat ≤ dst.length ∧ n.toNat ≤ src.length then
    some (dst.take off.toNat ++ src.take n.toNat ++ dst.drop (off.toNat + n.toNat))
  else none

/-- One iteration of the read loop of `http_query` (lines 74-77): `realloc`,
`memcpy`, then `length += num_bytes`. -/
def http_query_iter (response_data : Buffer) (r : ReadResult) : Option Buffer :=
  let num_bytes := r.num_bytes
  let data := realloc response_data.data (response_data.length + num_bytes)
  match memcpy data response_data.length r.buffer num_bytes with
  | none => none
  | some data => some { data := data, length := response_data.length + num_bytes }

/-- The read loop of `http_query` over the results of the successive `read`
calls.  It runs while the last `num_bytes` is positive; `none` when an iteration
is undefined or when the results are used up before the loop has ended. -/
def http_query_loop : Buffer → List ReadResult → Option Buffer
  | _, [] => none
  | response_data, r :: rs =>
    match http_query_iter response_data r with
    | none => none
    | some next => if r.num_bytes > 0 then http_query_loop next rs else some next

/-- The response buffer `http_query` starts with (lines 57-59). -/
def http_query_init : Buffer :=
  { data := List.replicate BUF_SIZE 0, length := 0 }

/-- The string `needle` occurs in `text` at offset `p` and at no smaller
offset. -/
def first_occurrence (needle text : List Nat) (p : Nat) : Prop :=
  needle <+: text.drop p ∧ ∀ j, j < p → ¬ needle <+: text.drop j

instance (needle text : List Nat) (p : Nat) : Decidable (first_occurrence needle text p) := by
  unfold first_occurrence
  infer_instance

/-- A response whose header block holds a NUL byte ahead of the blank line. -/
def nul_response : List Nat :=
  bytes "HTTP/1.0 200 OK\r\nX: " ++ [0] ++ bytes "\r\n\r\nhello"

/-- Splits a text into lines at the LF byte; `cur` collects the current line in
reverse. -/
def split_lines : List Nat → List Nat → List (List Nat)
  | [], cur => [cur.reverse]
  | c :: rest, cur =>
    if c = 10 then cur.reverse :: split_lines rest [] else split_lines rest (c :: cur)

/-- The size as the specification words it: on the first header line that
begins with `Content-Length:`, the decimal value of the maximal run of digits
that immediately follows these 15 characters. -/
def spec_content_length (text : List Nat) : Option Nat :=
  match (split_lines text []).find? (fun l => (bytes "Content-Length:").isPrefixOf l) with
  | none => none
  | some l => some (decimal ((l.drop 15).takeWhile isdigit))

/-! ## Auxiliary notions for the queue proofs -/

/-- Index arithmetic of the ring: `a` reduced into `[0, C)` when `a < 2 * C`. -/
def wrap (C a : Nat) : Nat := if a < C then a else a - C

/-- Representation relation: the queue `q` of capacity `C` holds exactly the
items `pending`, oldest first. -/
structure Rep (C : Nat) (q : Queue) (pending : List Nat) : Prop where
  size_eq : q.size = C
  data_len : q.data.length = C
  start_lt : q.start < C
  end_eq : q.end_ = wrap C (q.start + pending.length)
  len_le : pending.length ≤ C
  del_eq : q.queue_delete = pending.length
  add_eq : q.queue_add + pending.length = C
  slots : ∀ i, i < pending.length → q.data[wrap C (q.start + i)]? = pending[i]?

/-! ## Properties of queue.c -/

theorem wrap_eq_mod {C a : Nat} (h : a < 2 * C) : wrap C a = a % C := by
  unfold wrap
  split
  · rw [Nat.mod_eq_of_lt (by assumption)]
  · rw [Nat.mod_eq_sub_mod (by omega), Nat.mod_eq_of_lt (by omega)]

theorem rep_alloc {C : Nat} (hC : 1 ≤ C) : Rep C (queue_alloc C) [] := by
  constructor <;> simp [queue_alloc, wrap]
  omega

theorem rep_put {C : Nat} {q : Queue} {p : List Nat} (x : Nat) (h : Rep C q p)
    (hlt : p.length < C) :
    ∃ q', queue_put q x = some q' ∧ Rep C q' (p ++ [x]) := by
  obtain ⟨h1, h2, h3, h4, h5, h6, h7, h8⟩ := h
  have hadd : q.queue_add ≠ 0 := by omega
  have hend : q.end_ < C := by rw [h4]; unfold wrap; split <;> omega
  have hnot : ¬ q.data.length ≤ q.end_ := by omega
  have heq : queue_put q x = some { q with
      queue_add := q.queue_add - 1
      data := q.data.set q.end_ x
      end_ := if q.end_ + 1 ≤ q.size - 1 then q.end_ + 1 else 0
      queue_delete := q.queue_delete + 1 } := by
    simp only [queue_put, if_neg hadd, if_neg hnot]
  refine ⟨_, heq, ?_⟩
  constructor
  · exact h1
  · simp [h2]
  · exact h3
  · simp only [List.length_append, List.length_singleton, h1, h4]
    unfold wrap
    split_ifs <;> omega
  · simp; omega
  · simp [h6]
  · simp; omega
  · intro i hi
    simp only [List.length_append, List.length_singleton] at hi
    by_cases hi' : i < p.length
    · have hne : q.end_ ≠ wrap C (q.start + i) := by
        rw [h4]; unfold wrap; split_ifs <;> omega
      simp only [List.getElem?_set_ne hne]
      rw [h8 i hi', List.getElem?_append_left hi']
    · have hi'' : i = p.length := by omega
      subst hi''
      simp only [← h4]
      rw [List.getElem?_set_self (by omega)]
      simp

theorem rep_put_blocked {C : Nat} {q : Queue} {p : List Nat} (x : Nat) (h : Rep C q p)
    (hfull : ¬ p.length < C) : queue_put q x = none := by
  have := h.add_eq
  have := h.len_le
  have hadd : q.queue_add = 0 := by omega
  simp [queue_put, hadd]

theorem rep_get {C : Nat} {q : Queue} {p : List Nat} {x : Nat} (h : Rep C q (x :: p)) :
    ∃ q', queue_get q = some (x, q') ∧ Rep C q' p := by
  obtain ⟨h1, h2, h3, h4, h5, h6, h7, h8⟩ := h
  simp only [List.length_cons] at h4 h5 h6 h7
  have hdel : q.queue_delete ≠ 0 := by omega
  have h0 := h8 0 (by simp)
  have hw : wrap C (q.start + 0) = q.start := by unfold wrap; split <;> omega
  rw [hw] at h0
  simp only [List.getElem?_cons_zero] at h0
  have heq : queue_get q = some (x, { q with
      queue_delete := q.queue_delete - 1
      start := if q.start + 1 ≤ q.size - 1 then q.start + 1 else 0
      queue_add := q.queue_add + 1 }) := by
    simp only [queue_get, if_neg hdel, h0]
  refine ⟨_, heq, ?_⟩
  constructor
  · exact h1
  · exact h2
  · simp only [h1]; split_ifs <;> omega
  · simp only [h1, h4]
    unfold wrap
    split_ifs <;> omega
  · omega
  · simp [h6]
  · simp; omega
  · intro i hi
    have := h8 (i + 1) (by simp; omega)
    simp only [List.getElem?_cons_succ] at this
    rw [← this]
    congr 1
    simp only [h1]
    unfold wrap
    split_ifs <;> omega

theorem rep_get_blocked {C : Nat} {q : Queue} (h : Rep C q []) : queue_get q = none := by
  have := h.del_eq
  simp at this
  simp [queue_get, this]

theorem run_guarded (C : Nat) : ∀ (ops : List Op) (q : Queue) (p : List Nat),
    Rep C q p → guarded C p.length ops = true →
    ∃ q' p', run q ops = some (q', (p ++ puts ops).take (numGets ops)) ∧ Rep C q' p' := by
  intro ops
  induction ops with
  | nil =>
    intro q p h _
    exact ⟨q, p, by simp [run, numGets], h⟩
  | cons op ops ih =>
    intro q p h hg
    cases op with
    | put x =>
      simp only [guarded, Bool.and_eq_true, decide_eq_true_eq] at hg
      obtain ⟨q1, hq1, hrep⟩ := rep_put x h hg.1
      have hg2 : guarded C (p ++ [x]).length ops = true := by simpa using hg.2
      obtain ⟨q', p', hrun, hrep'⟩ := ih q1 (p ++ [x]) hrep hg2
      refine ⟨q', p', ?_, hrep'⟩
      simp only [run, hq1, hrun, puts, numGets, List.append_assoc, List.singleton_append]
    | get =>
      simp only [guarded, Bool.and_eq_true, decide_eq_true_eq] at hg
      cases p with
      | nil => simp at hg
      | cons y p1 =>
        obtain ⟨q1, hq1, hrep⟩ := rep_get h
        have hg2 : guarded C p1.length ops = true := by simpa using hg.2
        obtain ⟨q', p', hrun, hrep'⟩ := ih q1 p1 hrep hg2
        refine ⟨q', p', ?_, hrep'⟩
        simp only [run, hq1, hrun, puts, numGets, List.cons_append, List.take_succ_cons]

theorem run_sound (C : Nat) : ∀ (ops : List Op) (q : Queue) (p : List Nat) (q' : Queue)
    (outs : List Nat), Rep C q p → run q ops = some (q', outs) →
    ∃ p', Rep C q' p' ∧ p ++ puts ops = outs ++ p' ∧ outs.length = numGets ops := by
  intro ops
  induction ops with
  | nil =>
    intro q p q' outs h hr
    simp only [run, Option.some.injEq, Prod.mk.injEq] at hr
    obtain ⟨rfl, rfl⟩ := hr
    exact ⟨p, h, by simp [puts], by simp [numGets]⟩
  | cons op ops ih =>
    intro q p q' outs h hr
    cases op with
    | put x =>
      by_cases hlt : p.length < C
      · obtain ⟨q1, hq1, hrep⟩ := rep_put x h hlt
        simp only [run, hq1] at hr
        obtain ⟨p', hrep', happ, hlen⟩ := ih q1 (p ++ [x]) q' outs hrep hr
        refine ⟨p', hrep', ?_, by simpa [numGets] using hlen⟩
        simpa [puts] using happ
      · simp [run, rep_put_blocked x h hlt] at hr
    | get =>
      cases p with
      | nil => simp [run, rep_get_blocked h] at hr
      | cons y p1 =>
        obtain ⟨q1, hq1, hrep⟩ := rep_get h
        simp only [run, hq1] at hr
        cases hrun : run q1 ops with
        | none => simp [hrun] at hr
        | some res =>
          obtain ⟨qf, outs1⟩ := res
          simp only [hrun, Option.some.injEq, Prod.mk.injEq] at hr
          obtain ⟨rfl, rfl⟩ := hr
          obtain ⟨p', hrep', happ, hlen⟩ := ih q1 p1 qf outs1 hrep hrun
          refine ⟨p', hrep', ?_, by simp [numGets, hlen]⟩
          simp [puts, happ]

/-- C1: FIFO order.  For every capacity `C ≥ 1` and every sequence of calls in
which a put is made only with fewer than `C` items held and a get only with at
least one item held, all calls complete and the items returned by the gets are
exactly the first items passed to the puts, in the same order: the `k`-th
`queue_get` returns the item of the `k`-th `queue_put`. -/
theorem queue_fifo (C : Nat) (ops : List Op) (hC : 1 ≤ C)
    (hg : guarded C 0 ops = true) :
    ∃ q outs, run (queue_alloc C) ops = some (q, outs) ∧
      outs.length = numGets ops ∧
      numGets ops ≤ (puts ops).length ∧
      ∀ k, k < numGets ops → outs[k]? = (puts ops)[k]? := by
  obtain ⟨q, p', hrun, _⟩ := run_guarded C ops (queue_alloc C) [] (rep_alloc hC) (by simpa using hg)
  obtain ⟨p2, _, happ, hlen⟩ := run_sound C ops _ _ _ _ (rep_alloc hC) hrun
  simp only [List.nil_append] at hrun happ
  refine ⟨q, _, hrun, hlen, ?_, ?_⟩
  · simp only [List.length_take, List.nil_append] at hlen
    omega
  · intro k hk
    rw [List.getElem?_take_of_lt hk]

/-- The FIFO property at capacity 2 for the calls `sampleOps`. -/
theorem queue_fifo_witness :
    guarded 2 0 sampleOps = true ∧
    ∃ q outs, run (queue_alloc 2) sampleOps = some (q, outs) ∧
      outs.length = numGets sampleOps ∧
      numGets sampleOps ≤ (puts sampleOps).length ∧
      ∀ k, k < numGets sampleOps → outs[k]? = (puts sampleOps)[k]? :=
  ⟨by decide, queue_fifo 2 sampleOps (by decide) (by decide)⟩

/-- C2: bookkeeping invariant.  For every capacity `C ≥ 1` and every state
reached from `queue_alloc C` by enabled `queue_put` / `queue_get` calls, the
number of occupied slots (puts made minus gets made) equals the value of
`queue_delete`, equals `C` minus the value of `queue_add`, and is at most `C`;
`start` and `end` are below `C` with `end = (start + occupied) mod C`; a put is
enabled while fewer than `C` slots are occupied and advances `end` by one modulo
`C`, a get is enabled while a slot is occupied and advances `start` by one
modulo `C`. -/
theorem queue_invariant (C : Nat) (ops : List Op) (q : Queue) (outs : List Nat)
    (hC : 1 ≤ C) (hrun : run (queue_alloc C) ops = some (q, outs)) :
    numGets ops ≤ (puts ops).length ∧
    (puts ops).length - numGets ops = q.queue_delete ∧
    q.queue_add ≤ C ∧
    (puts ops).length - numGets ops = C - q.queue_add ∧
    (puts ops).length - numGets ops ≤ C ∧
    q.start < C ∧ q.end_ < C ∧
    q.end_ = (q.start + ((puts ops).length - numGets ops)) % C ∧
    ((puts ops).length - numGets ops < C → ∀ x, (queue_put q x).isSome = true) ∧
    (0 < (puts ops).length - numGets ops → (queue_get q).isSome = true) ∧
    (∀ x q', queue_put q x = some q' →
      q'.end_ = (q.end_ + 1) % C ∧ q'.start = q.start) ∧
    (∀ x q', queue_get q = some (x, q') →
      q'.start = (q.start + 1) % C ∧ q'.end_ = q.end_) := by
  obtain ⟨p', hrep, happ, hlen⟩ := run_sound C ops _ _ _ _ (rep_alloc hC) hrun
  have hl := congrArg List.length happ
  simp only [List.nil_append, List.length_append] at hl
  have hrep' := hrep
  obtain ⟨h1, h2, h3, h4, h5, h6, h7, h8⟩ := hrep
  have hocc : (puts ops).length - numGets ops = p'.length := by omega
  have hend : q.end_ < C := by rw [h4]; unfold wrap; split <;> omega
  rw [hocc]
  refine ⟨by omega, by omega, by omega, by omega, h5, h3, hend, ?_, ?_, ?_, ?_, ?_⟩
  · rw [h4, wrap_eq_mod (by omega)]
  · intro hlt x
    obtain ⟨q1, hq1, _⟩ := rep_put x hrep' hlt
    simp [hq1]
  · intro hpos
    cases p' with
    | nil => simp at hpos
    | cons y p1 =>
      obtain ⟨q1, hq1, _⟩ := rep_get hrep'
      simp [hq1]
  · intro x q' hput
    have hadd : q.queue_add ≠ 0 := fun h0 => by simp [queue_put, h0] at hput
    have hnot : ¬ q.data.length ≤ q.end_ := by omega
    simp only [queue_put, if_neg hadd, if_neg hnot, Option.some.injEq] at hput
    subst hput
    refine ⟨?_, rfl⟩
    dsimp only
    rw [← wrap_eq_mod (by omega), h1]
    unfold wrap
    split_ifs <;> omega
  · intro x q' hget
    have hdel : q.queue_delete ≠ 0 := fun h0 => by simp [queue_get, h0] at hget
    simp only [queue_get, if_neg hdel] at hget
    split at hget
    · simp at hget
    · simp only [Option.some.injEq, Prod.mk.injEq] at hget
      obtain ⟨_, rfl⟩ := hget
      refine ⟨?_, rfl⟩
      dsimp only
      rw [← wrap_eq_mod (by omega), h1]
      unfold wrap
      split_ifs <;> omega

/-- The bookkeeping invariant at capacity 2 after the calls `sampleOps`. -/
theorem queue_invariant_witness :
    run (queue_alloc 2) sampleOps = some (sampleQueue, [7, 8]) ∧
    (numGets sampleOps ≤ (puts sampleOps).length ∧
    (puts sampleOps).length - numGets sampleOps = sampleQueue.queue_delete ∧
    sampleQueue.queue_add ≤ 2 ∧
    (puts sampleOps).length - numGets sampleOps = 2 - sampleQueue.queue_add ∧
    (puts sampleOps).length - numGets sampleOps ≤ 2 ∧
    sampleQueue.start < 2 ∧ sampleQueue.end_ < 2 ∧
    sampleQueue.end_ = (sampleQueue.start + ((puts sampleOps).length - numGets sampleOps)) % 2 ∧
    ((puts sampleOps).length - numGets sampleOps < 2 →
      ∀ x, (queue_put sampleQueue x).isSome = true) ∧
    (0 < (puts sampleOps).length - numGets sampleOps → (queue_get sampleQueue).isSome = true) ∧
    (∀ x q', queue_put sampleQueue x = some q' →
      q'.end_ = (sampleQueue.end_ + 1) % 2 ∧ q'.start = sampleQueue.start) ∧
    (∀ x q', queue_get sampleQueue = some (x, q') →
      q'.start = (sampleQueue.start + 1) % 2 ∧ q'.end_ = sampleQueue.end_)) :=
  ⟨by decide, queue_invariant 2 sampleOps sampleQueue [7, 8] (by decide) (by decide)⟩

/-! ## Properties of http.c -/

theorem cstr_cons (c : Nat) (mem : List Nat) :
    cstr (c :: mem) = if c = 0 then [] else c :: cstr mem := by
  by_cases hc : c = 0
  · simp [cstr, hc]
  · simp [cstr, List.takeWhile_cons, hc]

theorem cstr_no_nul (mem : List Nat) : 0 ∉ cstr mem := by
  intro h
  have := List.mem_takeWhile_imp h
  simp at this

theorem cstr_of_no_nul {mem : List Nat} (h : 0 ∉ mem) : cstr mem = mem := by
  unfold cstr
  rw [List.takeWhile_eq_self_iff]
  intro x hx
  have : x ≠ 0 := fun h0 => h (h0 ▸ hx)
  simpa using this

theorem strstr_match_spec : ∀ (needle mem : List Nat), 0 ∉ needle →
    (strstr_match needle mem = some true ∧ needle <+: cstr mem) ∨
    (strstr_match needle mem = some false ∧ ¬ needle <+: cstr mem) ∨
    (strstr_match needle mem = none ∧ mem.length < needle.length ∧ 0 ∉ mem) := by
  intro needle
  induction needle with
  | nil =>
    intro mem _
    left
    exact ⟨by simp [strstr_match], List.nil_prefix⟩
  | cons n needle ih =>
    intro mem hn
    have hn0 : n ≠ 0 := fun h => hn (by simp [h])
    have hn' : 0 ∉ needle := fun h => hn (List.mem_cons_of_mem n h)
    cases mem with
    | nil =>
      right; right
      exact ⟨by simp [strstr_match], by simp, by simp⟩
    | cons c mem =>
      by_cases hc : c = n
      · subst hc
        have hstep : strstr_match (c :: needle) (c :: mem) = strstr_match needle mem := by
          simp [strstr_match]
        rw [hstep, cstr_cons, if_neg hn0]
        rcases ih mem hn' with ⟨h1, h2⟩ | ⟨h1, h2⟩ | ⟨h1, h2, h3⟩
        · left
          exact ⟨h1, List.cons_prefix_cons.mpr ⟨rfl, h2⟩⟩
        · right; left
          exact ⟨h1, fun h => h2 (List.cons_prefix_cons.mp h).2⟩
        · right; right
          refine ⟨h1, by simpa using h2, ?_⟩
          intro hmem
          rcases List.mem_cons.mp hmem with h0 | h0
          · exact hn0 h0.symm
          · exact h3 h0
      · right; left
        refine ⟨by simp [strstr_match, hc], ?_⟩
        rw [cstr_cons]
        split
        · intro h
          simp at h
        · intro h
          exact hc (List.cons_prefix_cons.mp h).1.symm

theorem strstr_from_spec (needle : List Nat) (hne : needle ≠ []) (hn : 0 ∉ needle) :
    ∀ (mem : List Nat) (i : Nat),
    (∃ p, first_occurrence needle (cstr mem) p ∧
      strstr_from needle mem i = some (some (i + p))) ∨
    (¬ needle <:+: cstr mem ∧ 0 ∈ mem ∧ strstr_from needle mem i = some none) ∨
    (¬ needle <:+: cstr mem ∧ 0 ∉ mem ∧ strstr_from needle mem i = none) := by
  intro mem
  induction mem with
  | nil =>
    intro i
    right; right
    obtain ⟨n, needle', rfl⟩ := List.exists_cons_of_ne_nil hne
    exact ⟨by simp [cstr], by simp, by simp [strstr_from, strstr_match]⟩
  | cons c mem ih =>
    intro i
    rcases strstr_match_spec needle (c :: mem) hn with ⟨h1, h2⟩ | ⟨h1, h2⟩ | ⟨h1, h2, h3⟩
    · left
      exact ⟨0, ⟨by simpa using h2, by simp⟩, by simp [strstr_from, h1]⟩
    · by_cases hc : c = 0
      · right; left
        subst hc
        refine ⟨?_, by simp, by simp [strstr_from, h1]⟩
        rw [cstr_cons, if_pos rfl]
        simpa using hne
      · have hstep : strstr_from needle (c :: mem) i = strstr_from needle mem (i + 1) := by
          simp [strstr_from, h1, hc]
        have hcs : cstr (c :: mem) = c :: cstr mem := by rw [cstr_cons, if_neg hc]
        rw [hcs] at h2 ⊢
        rcases ih (i + 1) with ⟨p, ⟨hpre, hmin⟩, hres⟩ | ⟨hno, hz, hres⟩ | ⟨hno, hz, hres⟩
        · left
          refine ⟨p + 1, ⟨by simpa using hpre, ?_⟩, ?_⟩
          · intro j hj
            cases j with
            | zero => simpa using h2
            | succ j => simpa using hmin j (by omega)
          · rw [hstep, hres]
            congr 2
            omega
        · right; left
          refine ⟨?_, List.mem_cons_of_mem c hz, by rw [hstep, hres]⟩
          rw [List.infix_cons_iff]
          tauto
        · right; right
          refine ⟨?_, ?_, by rw [hstep, hres]⟩
          · rw [List.infix_cons_iff]
            tauto
          · intro hmem
            rcases List.mem_cons.mp hmem with h0 | h0
            · exact hc h0.symm
            · exact hz h0
    · right; right
      refine ⟨?_, h3, by simp [strstr_from, h1]⟩
      rw [cstr_of_no_nul h3]
      intro hin
      have := hin.length_le
      omega

theorem occurrence_contained {needle text : List Nat} {p : Nat}
    (h : needle <+: text.drop p) : needle <:+: text :=
  List.IsInfix.trans h.isInfix (List.drop_suffix p text).isInfix

theorem strstr_of_absent {haystack needle : List Nat} (hne : cstr needle ≠ [])
    (h : ¬ cstr needle <:+: cstr haystack) (hz : 0 ∈ haystack) :
    strstr haystack needle = some none := by
  rcases strstr_from_spec (cstr needle) hne (cstr_no_nul needle) haystack 0 with
    ⟨p', hp', _⟩ | ⟨_, _, hres⟩ | ⟨_, hz', _⟩
  · exact absurd (occurrence_contained hp'.1) h
  · simpa [strstr] using hres
  · exact absurd hz hz'

theorem strstr_of_unterminated {haystack needle : List Nat} (hne : cstr needle ≠ [])
    (h : ¬ cstr needle <:+: haystack) (hz : 0 ∉ haystack) :
    strstr haystack needle = none := by
  rw [← cstr_of_no_nul hz] at h
  rcases strstr_from_spec (cstr needle) hne (cstr_no_nul needle) haystack 0 with
    ⟨p', hp', _⟩ | ⟨_, hz', _⟩ | ⟨_, _, hres⟩
  · exact absurd (occurrence_contained hp'.1) h
  · exact absurd hz' hz
  · simpa [strstr] using hres

/-- C3 (amended): for every response buffer, `http_get_content` returns the
offset 4 bytes after the first occurrence of `\r\n\r\n` among the bytes that
precede the first NUL byte of the buffer (all of it when it holds no NUL), when
those bytes contain the sequence.  When the buffer holds a NUL byte and the
bytes before it do not contain the sequence, it returns offset 0, the entire
input.  When the buffer holds neither the sequence nor a NUL byte, `strstr`
reads past the end of the buffer and there is no defined result.  For the bytes
`"HTTP/1.0 200 OK\r\nContent-Length: 5\r\n\r\nhello"` the returned view starts
at offset 38 and is exactly `"hello"`, of length 5. -/
theorem http_get_content_cstr (response : List Nat) :
    ((∃ p, first_occurrence (bytes "\r\n\r\n") (cstr response) p ∧
        http_get_content response = some (p + 4)) ∨
     (¬ bytes "\r\n\r\n" <:+: cstr response ∧ 0 ∈ response ∧
        http_get_content response = some 0) ∨
     (¬ bytes "\r\n\r\n" <:+: response ∧ 0 ∉ response ∧
        http_get_content response = none)) ∧
    http_get_content (bytes "HTTP/1.0 200 OK\r\nContent-Length: 5\r\n\r\nhello") = some 38 ∧
    (bytes "HTTP/1.0 200 OK\r\nContent-Length: 5\r\n\r\nhello").drop 38 = bytes "hello" ∧
    (bytes "hello").length = 5 := by
  have hsep : cstr (bytes "\r\n\r\n") = bytes "\r\n\r\n" := by decide
  have hne : bytes "\r\n\r\n" ≠ [] := by decide
  have hn : 0 ∉ bytes "\r\n\r\n" := by decide
  refine ⟨?_, by decide, by decide, by decide⟩
  rcases strstr_from_spec (bytes "\r\n\r\n") hne hn response 0 with
    ⟨p, hp, hres⟩ | ⟨hno, hz, hres⟩ | ⟨hno, hz, hres⟩
  · left
    refine ⟨p, hp, ?_⟩
    simp only [http_get_content, strstr, hsep, hres, Nat.zero_add]
  · right; left
    refine ⟨hno, hz, ?_⟩
    simp only [http_get_content, strstr, hsep, hres]
  · right; right
    rw [cstr_of_no_nul hz] at hno
    refine ⟨hno, hz, ?_⟩
    simp only [http_get_content, strstr, hsep, hres]

/-- C3 (as stated) fails.  `nul_response` contains `\r\n\r\n`, first at offset
21, so the claim puts the view at offset 25; `http_get_content` returns offset
0, because `strstr` stops at the NUL byte at offset 20.  The 15 bytes
`HTTP/1.0 200 OK`, as `http_query` stores them (no terminator), contain no
`\r\n\r\n`, so the claim puts the view at offset 0; the search runs past the
end of the block and there is no defined result. -/
theorem http_get_content_nul_counterexample :
    first_occurrence (bytes "\r\n\r\n") nul_response 21 ∧
    http_get_content nul_response = some 0 ∧
    http_get_content nul_response ≠ some (21 + 4) ∧
    ¬ bytes "\r\n\r\n" <:+: bytes "HTTP/1.0 200 OK" ∧
    http_get_content (bytes "HTTP/1.0 200 OK") = none := by
  decide

theorem get_num_tasks_sized_eq {s t : Int} (hs : 0 ≤ s) (ht : 1 ≤ t)
    (hfit : s / t + 1 ≤ INT_MAX) :
    get_num_tasks_sized s t = some { ret := t, max_chunk_size := s / t + 1 } := by
  have ht0 : t ≠ 0 := by omega
  have hq : Int.tdiv s t = s / t := Int.tdiv_eq_ediv hs (by omega)
  have hq0 : 0 ≤ s / t := Int.ediv_nonneg hs (by omega)
  have hmin : INT_MIN ≤ s / t := le_trans (by decide) hq0
  simp only [get_num_tasks_sized, if_neg ht0, hq, hmin, hfit, and_self, if_true]

theorem lt_mul_chunk {s t : Int} (ht : 1 ≤ t) : s < t * (s / t + 1) := by
  have := Int.lt_ediv_add_one_mul_self s (show 0 < t by omega)
  rwa [mul_comm] at this

/-- C4 (amended): for every probed size `s ≥ 0` and worker count `t ≥ 1` for
which `floor(s / t) + 1` is at most `INT_MAX` (every pair of `int` values except
`s = INT_MAX, t = 1`), the chunk size `get_num_tasks` stores and
`get_max_chunk_size` returns is `floor(s / t) + 1`; `s = 1000, t = 3` gives 334
and `s = 1000, t = 1` gives 1001. -/
theorem max_chunk_size_formula (s t : Int) (hs : 0 ≤ s) (ht : 1 ≤ t)
    (hfit : s / t + 1 ≤ INT_MAX) :
    (∃ p, get_num_tasks_sized s t = some p ∧ get_max_chunk_size p = s / t + 1 ∧
      ∀ buffer, content_length_int buffer = some s → get_num_tasks buffer t = some p) ∧
    (get_num_tasks_sized 1000 3).map get_max_chunk_size = some 334 ∧
    (get_num_tasks_sized 1000 1).map get_max_chunk_size = some 1001 := by
  refine ⟨⟨_, get_num_tasks_sized_eq hs ht hfit, rfl, ?_⟩, by decide, by decide⟩
  intro buffer hb
  simp only [get_num_tasks, hb, get_num_tasks_sized_eq hs ht hfit]

/-- The chunk size formula at `s = 2147483647`, `t = 2`. -/
theorem max_chunk_size_formula_witness :
    (∃ p, get_num_tasks_sized 2147483647 2 = some p ∧
      get_max_chunk_size p = 2147483647 / 2 + 1 ∧
      ∀ buffer, content_length_int buffer = some 2147483647 →
        get_num_tasks buffer 2 = some p) ∧
    (get_num_tasks_sized 1000 3).map get_max_chunk_size = some 334 ∧
    (get_num_tasks_sized 1000 1).map get_max_chunk_size = some 1001 :=
  max_chunk_size_formula 2147483647 2 (by decide) (by decide) (by decide)

/-- C4 (as stated) fails at `s = 2147483647`, `t = 1`: the claim gives the chunk
size 2147483648, which no `int` holds; the sum `s / t + 1` overflows and the
call has no defined outcome, also when started from the response text. -/
theorem max_chunk_size_overflow_counterexample :
    (0 : Int) ≤ 2147483647 ∧ (1 : Int) ≤ 1 ∧
    INT_MAX < 2147483647 / 1 + 1 ∧
    get_num_tasks_sized 2147483647 1 = none ∧
    content_length_int (bytes "HTTP/1.0 200 OK\r\nContent-Length: 2147483647\r\n\r\n")
      = some 2147483647 ∧
    get_num_tasks (bytes "HTTP/1.0 200 OK\r\nContent-Length: 2147483647\r\n\r\n") 1 = none := by
  decide

/-- Supporting fact for C7: for every probed size `s ≥ 0` and thread count
`t ≥ 1` with `floor(s / t) + 1` at most `INT_MAX`, `get_num_tasks` returns `t`
itself.  With `chunkSize = floor(s / t) + 1` the chunk size the same call stores,
`t` is at least `ceil(s / chunkSize)`, and `t` equals `ceil(s / chunkSize)`
exactly when `(t - 1) * chunkSize < s`. -/
theorem get_num_tasks_returns_threads (s t : Int) (hs : 0 ≤ s) (ht : 1 ≤ t)
    (hfit : s / t + 1 ≤ INT_MAX) :
    ∃ p, get_num_tasks_sized s t = some p ∧
      p.ret = t ∧
      p.max_chunk_size = s / t + 1 ∧
      ceil_div s p.max_chunk_size ≤ p.ret ∧
      (p.ret = ceil_div s p.max_chunk_size ↔ (t - 1) * p.max_chunk_size < s) := by
  refine ⟨_, get_num_tasks_sized_eq hs ht hfit, rfl, rfl, ?_, ?_⟩
  all_goals dsimp only
  all_goals have hc : 0 < s / t + 1 := by have := Int.ediv_nonneg hs (show 0 ≤ t by omega); omega
  all_goals have hcover := lt_mul_chunk (s := s) ht
  all_goals generalize s / t + 1 = c at hc hcover ⊢
  all_goals unfold ceil_div
  · have h1 : (s + c - 1) / c < t + 1 := by
      rw [Int.ediv_lt_iff_lt_mul hc]
      nlinarith
    omega
  · have h1 : (s + c - 1) / c < t + 1 := by
      rw [Int.ediv_lt_iff_lt_mul hc]
      nlinarith
    have h2 : t ≤ (s + c - 1) / c ↔ t * c ≤ s + c - 1 := Int.le_ediv_iff_mul_le hc
    constructor
    · intro h
      have := h2.mp (by omega)
      nlinarith
    · intro h
      have := h2.mpr (by nlinarith)
      omega

/-- The returned task count at `s = 6`, `t = 4`. -/
theorem get_num_tasks_returns_threads_witness :
    ∃ p, get_num_tasks_sized 6 4 = some p ∧
      p.ret = 4 ∧
      p.max_chunk_size = 6 / 4 + 1 ∧
      ceil_div 6 p.max_chunk_size ≤ p.ret ∧
      (p.ret = ceil_div 6 p.max_chunk_size ↔ (4 - 1) * p.max_chunk_size < 6) :=
  get_num_tasks_returns_threads 6 4 (by decide) (by decide) (by decide)

/-- C7 at a small resource: for the response header `Content-Length: 6` and 4
threads the call stores the chunk size 2 and returns 4, while
`ceil(6 / 2) = 3` downloads of 2 bytes fetch the 6 bytes; for the size 0 and 1
thread it returns 1, while `ceil(0 / 1) = 0`. -/
theorem get_num_tasks_small_resource :
    get_num_tasks (bytes "HTTP/1.0 200 OK\r\nContent-Length: 6\r\n\r\n") 4
      = some { ret := 4, max_chunk_size := 2 } ∧
    ceil_div 6 2 = 3 ∧
    get_num_tasks_sized 0 1 = some { ret := 1, max_chunk_size := 1 } ∧
    ceil_div 0 1 = 0 := by
  decide

/-- C10 (amended): for every resource size `s ≥ 0` and thread count `t ≥ 1`
with `floor(s / t) + 1` at most `INT_MAX`, the task count `t` returned by
`get_num_tasks` and the chunk size `c = floor(s / t) + 1` it stores satisfy
`t * c > s`; every byte offset in `[0, s)` lies in exactly one of the chunks
`[i * c, (i + 1) * c)`, `i = 0 .. t - 1`, namely the one of index `offset / c`,
and that index is less than `t`. -/
theorem chunks_cover_resource (s t : Int) (hs : 0 ≤ s) (ht : 1 ≤ t)
    (hfit : s / t + 1 ≤ INT_MAX) :
    ∃ p, get_num_tasks_sized s t = some p ∧
      p.ret = t ∧
      get_max_chunk_size p = s / t + 1 ∧
      s < p.ret * get_max_chunk_size p ∧
      ∀ offset, 0 ≤ offset → offset < s →
        0 ≤ offset / get_max_chunk_size p ∧
        offset / get_max_chunk_size p < p.ret ∧
        ∀ i, (0 ≤ i ∧ i < p.ret ∧ i * get_max_chunk_size p ≤ offset ∧
              offset < (i + 1) * get_max_chunk_size p) ↔
             i = offset / get_max_chunk_size p := by
  refine ⟨_, get_num_tasks_sized_eq hs ht hfit, rfl, rfl, ?_, ?_⟩
  all_goals dsimp only [get_max_chunk_size]
  all_goals have hc : 0 < s / t + 1 := by have := Int.ediv_nonneg hs (show 0 ≤ t by omega); omega
  all_goals have hcover := lt_mul_chunk (s := s) ht
  all_goals generalize s / t + 1 = c at hc hcover ⊢
  · exact hcover
  · intro offset h0 hlt
    have hq0 : 0 ≤ offset / c := Int.ediv_nonneg h0 (by omega)
    have hqt : offset / c < t := by
      rw [Int.ediv_lt_iff_lt_mul hc]
      omega
    refine ⟨hq0, hqt, ?_⟩
    intro i
    have hle : i ≤ offset / c ↔ i * c ≤ offset := Int.le_ediv_iff_mul_le hc
    have hlt2 : offset / c < i + 1 ↔ offset < (i + 1) * c := Int.ediv_lt_iff_lt_mul hc
    constructor
    · rintro ⟨_, _, h3, h4⟩
      have := hle.mpr h3
      have := hlt2.mpr h4
      omega
    · intro h
      subst h
      exact ⟨hq0, hqt, hle.mp le_rfl, hlt2.mp (by omega)⟩

/-- The coverage of the resource by the chunks at `s = 1000`, `t = 3`. -/
theorem chunks_cover_resource_witness :
    ∃ p, get_num_tasks_sized 1000 3 = some p ∧
      p.ret = 3 ∧
      get_max_chunk_size p = 1000 / 3 + 1 ∧
      1000 < p.ret * get_max_chunk_size p ∧
      ∀ offset, 0 ≤ offset → offset < 1000 →
        0 ≤ offset / get_max_chunk_size p ∧
        offset / get_max_chunk_size p < p.ret ∧
        ∀ i, (0 ≤ i ∧ i < p.ret ∧ i * get_max_chunk_size p ≤ offset ∧
              offset < (i + 1) * get_max_chunk_size p) ↔
             i = offset / get_max_chunk_size p :=
  chunks_cover_resource 1000 3 (by decide) (by decide) (by decide)

/-- C10 (as stated) fails at `s = 2147483647`, `t = 1`: the chunk size
`floor(s / t) + 1 = 2147483648` exceeds `INT_MAX`, so the call stores no such
chunk size: the sum overflows and the call has no defined outcome. -/
theorem chunks_cover_overflow_counterexample :
    INT_MAX < 2147483647 / 1 + 1 ∧
    ¬ ∃ p, get_num_tasks_sized 2147483647 1 = some p ∧
      get_max_chunk_size p = 2147483647 / 1 + 1 := by
  refine ⟨by decide, ?_⟩
  rintro ⟨p, hp, _⟩
  have : get_num_tasks_sized 2147483647 1 = none := by decide
  rw [this] at hp
  exact Option.noConfusion hp

/-- C6 (amended): for every worker count `t ≥ 1` and every probe block (the
received response text followed by the bytes the block held before) that holds
a NUL byte and does not contain `Content-Length:` ahead of its first NUL byte,
`get_num_tasks` computes the size 0, stores the chunk size 1 and returns `t`.
That outcome is the one it produces for every response whose computed size is
below `t`, a present `Content-Length: 0` included, so the outcome alone does not
reveal the missing header.  For a block that holds neither the text nor a NUL
byte the search runs past its end and there is no defined outcome. -/
theorem get_num_tasks_absent (buffer : List Nat) (t : Int) (ht : 1 ≤ t)
    (hz : 0 ∈ buffer) (habs : ¬ bytes "Content-Length:" <:+: cstr buffer) :
    content_length_int buffer = some 0 ∧
    get_num_tasks buffer t = some { ret := t, max_chunk_size := 1 } ∧
    (∀ buffer' s, content_length_int buffer' = some s → 0 ≤ s → s < t →
      get_num_tasks buffer' t = get_num_tasks buffer t) ∧
    get_num_tasks (bytes "HTTP/1.0 200 OK\r\nContent-Length: 0\r\n\r\n") t
      = get_num_tasks buffer t ∧
    (∀ block, 0 ∉ block → ¬ bytes "Content-Length:" <:+: block →
      get_num_tasks block t = none) := by
  have hneedle : cstr (bytes "Content-Length:") = bytes "Content-Length:" := by decide
  have hne : cstr (bytes "Content-Length:") ≠ [] := by decide
  have hstr : strstr buffer (bytes "Content-Length:") = some none :=
    strstr_of_absent hne (by rwa [hneedle]) hz
  have hchars : content_length_chars buffer = some [] := by
    simp only [content_length_chars, hstr]
  have hval : content_length_int buffer = some 0 := by
    unfold content_length_int
    simp only [hchars]
    decide
  have hsmall : ∀ s : Int, 0 ≤ s → s < t →
      get_num_tasks_sized s t = some { ret := t, max_chunk_size := 1 } := by
    intro s hs hst
    have hq : s / t = 0 := Int.ediv_eq_zero_of_lt hs hst
    have := get_num_tasks_sized_eq hs ht (by rw [hq]; decide)
    rw [this, hq]
    rfl
  have hres : get_num_tasks buffer t = some { ret := t, max_chunk_size := 1 } := by
    simp only [get_num_tasks, hval, hsmall 0 le_rfl (by omega)]
  refine ⟨hval, hres, ?_, ?_, ?_⟩
  · intro buffer' s hb hs hst
    simp only [get_num_tasks, hb, hsmall s hs hst, hval, hsmall 0 le_rfl (by omega)]
  · have h0 : content_length_int (bytes "HTTP/1.0 200 OK\r\nContent-Length: 0\r\n\r\n")
        = some 0 := by decide
    simp only [get_num_tasks, h0, hval]
  · intro block hzb hab
    have hs : strstr block (bytes "Content-Length:") = none :=
      strstr_of_unterminated hne (by rwa [hneedle]) hzb
    simp only [get_num_tasks, content_length_int, content_length_chars, hs]

/-- The outcome for a response without the header, followed in the block by a
NUL byte, for three workers. -/
theorem get_num_tasks_absent_witness :
    (0 ∈ bytes "HTTP/1.0 200 OK\r\n\r\n" ++ [0] ∧
     ¬ bytes "Content-Length:" <:+: cstr (bytes "HTTP/1.0 200 OK\r\n\r\n" ++ [0])) ∧
    (content_length_int (bytes "HTTP/1.0 200 OK\r\n\r\n" ++ [0]) = some 0 ∧
    get_num_tasks (bytes "HTTP/1.0 200 OK\r\n\r\n" ++ [0]) 3
      = some { ret := 3, max_chunk_size := 1 } ∧
    (∀ buffer' s, content_length_int buffer' = some s → 0 ≤ s → s < 3 →
      get_num_tasks buffer' 3 = get_num_tasks (bytes "HTTP/1.0 200 OK\r\n\r\n" ++ [0]) 3) ∧
    get_num_tasks (bytes "HTTP/1.0 200 OK\r\nContent-Length: 0\r\n\r\n") 3
      = get_num_tasks (bytes "HTTP/1.0 200 OK\r\n\r\n" ++ [0]) 3 ∧
    (∀ block, 0 ∉ block → ¬ bytes "Content-Length:" <:+: block →
      get_num_tasks block 3 = none)) :=
  ⟨⟨by decide, by decide⟩,
   get_num_tasks_absent (bytes "HTTP/1.0 200 OK\r\n\r\n" ++ [0]) 3 (by decide) (by decide)
     (by decide)⟩

/-- C6 (as stated) fails: the response `HTTP/1.0 200 OK` without the header
(followed in the block by a NUL byte) and the response with the header line
`Content-Length: 0` (also the one with `Content-Length: 2` for three workers)
give the same return value and the same stored chunk size, so the outcome for a
missing header is not different from every outcome for a present header.  A
response with no header line that begins with `Content-Length:` but with the
line `X-Content-Length: 7` gets the size 7, not 0.  The response without the
header gets the size 777 when the block still holds `Content-Length: 777` behind
it, and no defined size when the block ends with the response. -/
theorem missing_header_counterexample :
    spec_content_length (bytes "HTTP/1.0 200 OK\r\n\r\n") = none ∧
    ¬ bytes "Content-Length:" <:+: cstr (bytes "HTTP/1.0 200 OK\r\n\r\n" ++ [0]) ∧
    first_occurrence (bytes "Content-Length:")
      (cstr (bytes "HTTP/1.0 200 OK\r\nContent-Length: 0\r\n\r\n")) 17 ∧
    spec_content_length (bytes "HTTP/1.0 200 OK\r\nContent-Length: 0\r\n\r\n") ≠ none ∧
    get_num_tasks (bytes "HTTP/1.0 200 OK\r\n\r\n" ++ [0]) 3
      = get_num_tasks (bytes "HTTP/1.0 200 OK\r\nContent-Length: 0\r\n\r\n") 3 ∧
    get_num_tasks (bytes "HTTP/1.0 200 OK\r\n\r\n" ++ [0]) 3
      = get_num_tasks (bytes "HTTP/1.0 200 OK\r\nContent-Length: 2\r\n\r\n") 3 ∧
    spec_content_length (bytes "HTTP/1.0 200 OK\r\nX-Content-Length: 7\r\n\r\n") = none ∧
    content_length_int (bytes "HTTP/1.0 200 OK\r\nX-Content-Length: 7\r\n\r\n") = some 7 ∧
    content_length_int (bytes "HTTP/1.0 200 OK\r\n\r\n" ++ bytes "Content-Length: 777\r\n")
      = some 777 ∧
    content_length_int (bytes "HTTP/1.0 200 OK\r\n\r\n") = none := by
  decide

theorem http_query_iter_received (b : Buffer) (c : List Nat) (n : Nat)
    (hlen : b.length = (n : Int)) (hdata : n ≤ b.data.length) :
    http_query_iter b (ReadResult.received c)
      = some { data := b.data.take n ++ c, length := ((n + c.length : Nat) : Int) } := by
  have hsum : (n : Int) + (c.length : Int) = ((n + c.length : Nat) : Int) := by push_cast; rfl
  have htoNat : ((n + c.length : Nat) : Int).toNat = n + c.length := Int.toNat_natCast _
  have hre : (realloc b.data ((n + c.length : Nat) : Int)).take n = b.data.take n := by
    simp only [realloc, htoNat, List.take_take, Nat.min_eq_left (Nat.le_add_right n c.length)]
    rw [List.take_append_of_le_length hdata]
  have hrelen : (realloc b.data ((n + c.length : Nat) : Int)).length = n + c.length := by
    simp only [realloc, htoNat, List.length_take, List.length_append, List.length_replicate]
    omega
  have hcond : (0 : Int) ≤ (c.length : Int) ∧ (0 : Int) ≤ (n : Int) ∧
      (n : Int).toNat + (c.length : Int).toNat
        ≤ (realloc b.data ((n + c.length : Nat) : Int)).length ∧
      (c.length : Int).toNat ≤ c.length := by
    refine ⟨Int.ofNat_nonneg _, Int.ofNat_nonneg _, ?_, ?_⟩
    · simp only [Int.toNat_natCast, hrelen]
      exact le_rfl
    · simp
  have hmem : memcpy (realloc b.data ((n + c.length : Nat) : Int)) (n : Int) c
      (c.length : Int) = some (b.data.take n ++ c) := by
    unfold memcpy
    rw [if_pos hcond]
    simp only [Int.toNat_natCast, hre, List.take_length]
    rw [List.drop_eq_nil_of_le (by omega)]
    simp
  simp only [http_query_iter, ReadResult.num_bytes, ReadResult.buffer, hlen, hsum, hmem]

theorem http_query_iter_failed (b : Buffer) : http_query_iter b ReadResult.failed = none := by
  have hneg : ¬ ((0 : Int) ≤ -1 ∧ (0 : Int) ≤ b.length ∧
      b.length.toNat + (-1 : Int).toNat ≤ (realloc b.data (b.length + -1)).length ∧
      (-1 : Int).toNat ≤ ([] : List Nat).length) := fun h => absurd h.1 (by decide)
  simp only [http_query_iter, ReadResult.num_bytes, ReadResult.buffer, memcpy, if_neg hneg]

/-- Supporting fact for C9: when every `read` succeeds, the chunks
`c₁, …, cₖ` (all non-empty) followed by the end-of-stream read leave the buffer
holding `c₁ ++ … ++ cₖ` with `length` the number of bytes received. -/
theorem http_query_loop_received : ∀ (chunks : List (List Nat)) (b : Buffer) (n : Nat),
    (∀ c ∈ chunks, c ≠ []) → b.length = (n : Int) → n ≤ b.data.length →
    http_query_loop b (chunks.map ReadResult.received ++ [ReadResult.received []])
      = some { data := b.data.take n ++ chunks.flatten,
               length := ((n + chunks.flatten.length : Nat) : Int) } := by
  intro chunks
  induction chunks with
  | nil =>
    intro b n _ hlen hdata
    have h0 : ¬ (ReadResult.received []).num_bytes > 0 := by simp [ReadResult.num_bytes]
    simp only [List.map_nil, List.nil_append, http_query_loop, if_neg h0,
      http_query_iter_received b [] n hlen hdata]
    simp
  | cons c chunks ih =>
    intro b n hne hlen hdata
    have hc : c ≠ [] := hne c (List.mem_cons_self c chunks)
    have hpos : (ReadResult.received c).num_bytes > 0 := by
      simp only [ReadResult.num_bytes, gt_iff_lt, Int.natCast_pos]
      exact List.length_pos.mpr hc
    have hstep : http_query_loop b
          ((c :: chunks).map ReadResult.received ++ [ReadResult.received []])
        = http_query_loop { data := b.data.take n ++ c, length := ((n + c.length : Nat) : Int) }
            (chunks.map ReadResult.received ++ [ReadResult.received []]) := by
      simp only [List.map_cons, List.cons_append, http_query_loop, if_pos hpos,
        http_query_iter_received b c n hlen hdata]
      rfl
    rw [hstep, ih { data := b.data.take n ++ c, length := ((n + c.length : Nat) : Int) }
      (n + c.length) (fun c' hc' => hne c' (List.mem_cons_of_mem c hc')) rfl
      (by simp only [List.length_append, List.length_take]; omega)]
    have htake : (b.data.take n ++ c).take (n + c.length) = b.data.take n ++ c := by
      apply List.take_of_length_le
      simp only [List.length_append, List.length_take]
      omega
    simp only [htake, List.flatten_cons, List.append_assoc, List.length_append, Nat.add_assoc]

/-- Supporting fact for C9: when a `read` fails after any number of successful
reads, whatever comes after it, the loop has no defined outcome: its iteration
calls `memcpy` with the count `(size_t)-1`. -/
theorem http_query_loop_failed : ∀ (chunks : List (List Nat)) (rest : List ReadResult)
    (b : Buffer) (n : Nat),
    (∀ c ∈ chunks, c ≠ []) → b.length = (n : Int) → n ≤ b.data.length →
    http_query_loop b (chunks.map ReadResult.received ++ ReadResult.failed :: rest) = none := by
  intro chunks rest
  induction chunks with
  | nil =>
    intro b n _ _ _
    simp only [List.map_nil, List.nil_append, http_query_loop, http_query_iter_failed]
  | cons c chunks ih =>
    intro b n hne hlen hdata
    have hc : c ≠ [] := hne c (List.mem_cons_self c chunks)
    have hpos : (ReadResult.received c).num_bytes > 0 := by
      simp only [ReadResult.num_bytes, gt_iff_lt, Int.natCast_pos]
      exact List.length_pos.mpr hc
    have hstep : http_query_loop b
          ((c :: chunks).map ReadResult.received ++ ReadResult.failed :: rest)
        = http_query_loop { data := b.data.take n ++ c, length := ((n + c.length : Nat) : Int) }
            (chunks.map ReadResult.received ++ ReadResult.failed :: rest) := by
      simp only [List.map_cons, List.cons_append, http_query_loop, if_pos hpos,
        http_query_iter_received b c n hlen hdata]
      rfl
    rw [hstep]
    exact ih { data := b.data.take n ++ c, length := ((n + c.length : Nat) : Int) }
      (n + c.length) (fun c' hc' => hne c' (List.mem_cons_of_mem c hc')) rfl
      (by simp only [List.length_append, List.length_take]; omega)

/-- C9 at a failing read: a first `read` delivers the five bytes `hello` and
leaves the buffer holding them with `length = 5`; a second `read` that returns
`-1` makes the next iteration call `memcpy(data + 5, buffer, (size_t)-1)`, which
is undefined, so the loop does not end with the five bytes received and
`length = 5`, as it does when the second `read` reports the end of the
stream. -/
theorem http_query_read_error :
    http_query_iter http_query_init (ReadResult.received (bytes "hello"))
      = some { data := bytes "hello", length := 5 } ∧
    memcpy (realloc (bytes "hello") (5 + ReadResult.failed.num_bytes)) 5
      ReadResult.failed.buffer ReadResult.failed.num_bytes = none ∧
    http_query_iter { data := bytes "hello", length := 5 } ReadResult.failed = none ∧
    http_query_loop http_query_init [ReadResult.received (bytes "hello"), ReadResult.failed]
      = none ∧
    http_query_loop http_query_init
        [ReadResult.received (bytes "hello"), ReadResult.received []]
      = some { data := bytes "hello", length := 5 } := by
  decide

end Downloader
